import Mathlib

/-!
Shallow embedding of the ingestion-and-ranking core of
`src/finola_miqailla_final.py` (Project Gutenberg word-frequency tool).

Modelling conventions:
* Python strings are Lean `String`s; character-level work happens on
  `String.data : List Char`.  `str.lower()` is modelled character-wise with
  `Char.toLower` (the ASCII fragment, which is what every claim exercises).
* `re.findall(r'\b\w+\b', s)` returns the maximal runs of word characters
  of `s` scanned left to right; `findWords` implements that scan directly.
* The Python dict `freq` keeps keys in first-insertion order and
  `sorted(..., key=lambda x: x[1], reverse=True)` is a stable sort, so the
  ranking is modelled with an order-preserving association list and a
  stable descending insertion sort.
* The SQLite tables are lists of rows kept in rowid order; `INTEGER PRIMARY
  KEY` assignment is modelled with a fresh-id counter.  `ORDER BY frequency
  DESC` is modelled as the stable descending sort over scan (rowid) order,
  which is the deterministic reading of the query on this schema.
* The network fetch and the HTML chunking are external inputs: the pipeline
  functions take the list of textual data chunks that the HTML parser
  delivers in document order.  The code lowercases the whole decoded text
  before feeding it to the parser; since `<` and `>` are unaffected by
  lowercasing, this equals lowercasing each data chunk, which is how the
  pipeline is modelled here.
-/

namespace Gutenberg

/-- ASCII word characters of the `\w` class in `re.findall(r'\b\w+\b', ...)`:
alphanumerics and underscore. -/
def isWordChar (c : Char) : Bool := c.isAlphanum || c == '_'

/-- Whitespace recognized by the regex escape `\s` and by `str.strip()`
(ASCII fragment). -/
def isPySpace (c : Char) : Bool :=
  c == ' ' || c == '\t' || c == '\n' || c == '\r' || c == '\x0b' || c == '\x0c'

/-- `str.lower()` modelled character-wise (ASCII fragment). -/
def strLower (s : String) : String := String.mk (s.data.map Char.toLower)

/-- `re.findall(r'\b\w+\b', s)` on a character list: scan left to right,
emitting each maximal run of word characters as one match.  The scan
consumes at least one character per step, so it is written with an explicit
step budget (the length of the input) to keep the recursion structural. -/
def findWordsF : Nat → List Char → List (List Char)
  | 0, _ => []
  | _, [] => []
  | fuel + 1, c :: cs =>
    if isWordChar c then
      (c :: cs.takeWhile isWordChar) :: findWordsF fuel (cs.dropWhile isWordChar)
    else
      findWordsF fuel cs

/-- `re.findall(r'\b\w+\b', s)` : the maximal word-character runs of `s`. -/
def findWords (l : List Char) : List (List Char) := findWordsF l.length l

theorem findWordsF_congr :
    ∀ (f1 f2 : Nat) (l : List Char), l.length ≤ f1 → l.length ≤ f2 →
      findWordsF f1 l = findWordsF f2 l := by
  intro f1
  induction f1 with
  | zero =>
    intro f2 l h1 _
    have : l = [] := List.eq_nil_of_length_eq_zero (Nat.le_zero.1 h1)
    subst this
    cases f2 <;> rfl
  | succ f ih =>
    intro f2 l h1 h2
    cases l with
    | nil => cases f2 <;> rfl
    | cons c cs =>
      cases f2 with
      | zero => simp at h2
      | succ k =>
        simp only [List.length_cons] at h1 h2
        rw [findWordsF, findWordsF]
        by_cases hc : isWordChar c = true
        · rw [if_pos hc, if_pos hc]
          have hd := (@List.dropWhile_sublist Char cs isWordChar).length_le
          rw [ih k (cs.dropWhile isWordChar) (by omega) (by omega)]
        · rw [if_neg hc, if_neg hc]
          exact ih k cs (by omega) (by omega)

/-- `re.findall(r'\b\w+\b', data.lower())` : the token list collected from
one data chunk (line 60 of the source). -/
def tokensOf (data : String) : List String :=
  (findWords (strLower data).data).map String.mk

/-- One step of the frequency loop `freq[word] = freq.get(word, 0) + 1`:
a Python dict preserves first-insertion order of keys, so it is modelled as
an association list where updating an existing key keeps its position and a
new key is appended. -/
def bump (freq : List (String × Nat)) (w : String) : List (String × Nat) :=
  if freq.any (fun p => p.1 == w) then
    freq.map (fun p => if p.1 == w then (p.1, p.2 + 1) else p)
  else
    freq ++ [(w, 1)]

/-- The whole counting loop over the parser's word list. -/
def wordFreqs (tokens : List String) : List (String × Nat) :=
  tokens.foldl bump []

/-- Stable descending insertion step: `x` is placed before the first element
whose count is not larger, so elements with equal counts keep their original
relative order. -/
def insertDesc (x : String × Nat) : List (String × Nat) → List (String × Nat)
  | [] => [x]
  | y :: ys => if x.2 < y.2 then y :: insertDesc x ys else x :: y :: ys

/-- `sorted(items, key=lambda x: x[1], reverse=True)` : Python's sort is
stable, and a stable sort is determined by its key order, so it is modelled
by stable descending insertion sort. -/
def sortDesc : List (String × Nat) → List (String × Nat)
  | [] => []
  | x :: xs => insertDesc x (sortDesc xs)

/-- `sorted(freq.items(), key=lambda x: x[1], reverse=True)[:limit]`.
The source instantiates `limit` with 10 (`top_10`, line 144). -/
def rank (tokens : List String) (limit : Nat) : List (String × Nat) :=
  (sortDesc (wordFreqs tokens)).take limit

/-- The literal pattern prefix `title:` of `re.search(r"title:\s*(.+)", data,
re.IGNORECASE)` and of the guard `"title:" in data`. -/
def titleLit : List Char := ['t', 'i', 't', 'l', 'e', ':']

/-- Does the pattern literal `title:` match (case-insensitively, per
`re.IGNORECASE`) at the head of `l`? -/
def matchesCI (l : List Char) : Bool := (l.take 6).map Char.toLower == titleLit

/-- Backtracking of `\s*` before `(.+)`: the engine first lets `\s*` take the
whole whitespace prefix (length `j`) and shortens it until `(.+)` can start,
i.e. until the character right after the consumed prefix exists and is not a
newline (`.` does not match `\n`).  `pickK rest j` returns the largest such
split point `k ≤ j`, if any. -/
def pickK (rest : List Char) : Nat → Option Nat
  | 0 =>
    match rest[0]? with
    | some c => if c == '\n' then none else some 0
    | none => none
  | k + 1 =>
    match rest[k + 1]? with
    | some c => if c == '\n' then pickK rest k else some (k + 1)
    | none => pickK rest k

/-- Matching of `\s*(.+)` against the text following the literal `title:`:
if a split point exists, the group is the greedy `.+` run (up to the next
newline or the end) starting there. -/
def attemptRest (rest : List Char) : Option (List Char) :=
  match pickK rest (rest.takeWhile isPySpace).length with
  | some k => some ((rest.drop k).takeWhile (fun c => !(c == '\n')))
  | none => none

/-- `re.search(r"title:\s*(.+)", data, re.IGNORECASE)` : try the whole
pattern at every start position from the left; the first position where the
full pattern matches yields the captured group. -/
def trySearch : List Char → Option (List Char)
  | [] => none
  | c :: cs =>
    if matchesCI (c :: cs) then
      match attemptRest ((c :: cs).drop 6) with
      | some cap => some cap
      | none => trySearch cs
    else
      trySearch cs

/-- `str.strip()` on a character list. -/
def stripChars (l : List Char) : List Char :=
  ((l.dropWhile isPySpace).reverse.dropWhile isPySpace).reverse

/-- The mutable state of `MyHTMLParser`. -/
structure ParserState where
  words : List String
  extracted_title : String
  title_found : Bool
deriving Repr, DecidableEq

/-- `MyHTMLParser.__init__`. -/
def initState : ParserState := ⟨[], "", false⟩

/-- `MyHTMLParser.handle_data`: on each textual data chunk, first try to
extract the title (guarded by the case-sensitive containment check
`"title:" in data` and by `title_found`), then append the lowercased word
tokens of the chunk. -/
def handle_data (st : ParserState) (data : String) : ParserState :=
  let st1 :=
    if !st.title_found && decide (titleLit <:+: data.data) then
      match trySearch data.data with
      | some cap =>
        { st with extracted_title := String.mk (stripChars cap), title_found := true }
      | none => st
    else st
  { st1 with words := st1.words ++ tokensOf data }

/-- `parser.feed(text)` over the textual data chunks of the document, in
document order. -/
def feedAll (chunks : List String) : ParserState :=
  chunks.foldl handle_data initState

/-- `html_text = response.read().decode('utf-8').lower()` : the pipeline
lowercases the whole decoded text before parsing, hence each data chunk is
lowercased. -/
def lowerChunks (chunks : List String) : List String := chunks.map strLower

/-- `title = parser.extracted_title if parser.title_found else "Unknown Title"`
for a fetched document whose data chunks are `chunks`. -/
def resolvedTitle (chunks : List String) : String :=
  let st := feedAll (lowerChunks chunks)
  if st.title_found then st.extracted_title else "Unknown Title"

/-- Whether the pipeline's parser extracted a title from the document. -/
def titleWasFound (chunks : List String) : Bool :=
  (feedAll (lowerChunks chunks)).title_found

/-- A row of the `book` table. -/
structure BookRow where
  id : Nat
  title : String
  link : String
deriving Repr, DecidableEq

/-- A row of the `word_frequencies` table. -/
structure WFRow where
  id : Nat
  book_id : Nat
  word : String
  frequency : Nat
deriving Repr, DecidableEq

/-- The SQLite database state: rows are kept in rowid order and
`INTEGER PRIMARY KEY` assignment is modelled by fresh-id counters. -/
structure DB where
  books : List BookRow
  wfs : List WFRow
  nextBookId : Nat
  nextWfId : Nat
deriving Repr, DecidableEq

/-- A freshly created database (SQLite rowids start at 1). -/
def emptyDB : DB := ⟨[], [], 1, 1⟩

/-- `insert_book(title, link)` (lines 64-73): look up an existing book by
exact `(title, link)` match (`fetchone` returns the first matching row in
rowid order); return its id if found, otherwise insert a new row and return
the freshly assigned id (`cursor.lastrowid`). -/
def insert_book (title link : String) (db : DB) : Nat × DB :=
  match db.books.find? (fun b => b.title == title && b.link == link) with
  | some b => (b.id, db)
  | none =>
    (db.nextBookId,
     { db with
        books := db.books ++ [⟨db.nextBookId, title, link⟩],
        nextBookId := db.nextBookId + 1 })

/-- `insert_word_frequencies(book_id, frequencies)` (lines 75-82):
`DELETE FROM word_frequencies WHERE book_id = ?`, then insert the given
pairs in order, each with a fresh rowid. -/
def insert_word_frequencies (book_id : Nat) (frequencies : List (String × Nat))
    (db : DB) : DB :=
  { db with
     wfs := db.wfs.filter (fun r => !(r.book_id == book_id))
             ++ frequencies.enum.map (fun p => ⟨db.nextWfId + p.1, book_id, p.2.1, p.2.2⟩),
     nextWfId := db.nextWfId + frequencies.length }

/-- `fetch_frequencies_by_title(title)` (lines 84-98): resolve the title to
the first matching book row, return `[]` if none; otherwise return that
book's `(word, frequency)` rows ordered by frequency descending (stable over
rowid scan order), truncated to 10. -/
def fetch_frequencies_by_title (title : String) (db : DB) : List (String × Nat) :=
  match db.books.find? (fun b => b.title == title) with
  | none => []
  | some b =>
    (sortDesc ((db.wfs.filter (fun r => r.book_id == b.id)).map
        (fun r => (r.word, r.frequency)))).take 10

/-- `search_url_and_store` (lines 123-149) after a successful fetch whose
decoded text has data chunks `chunks`: lowercase, parse, resolve the title,
rank the top 10 word frequencies, store, and return the displayed ranking. -/
def ingest (link : String) (chunks : List String) (db : DB) :
    DB × List (String × Nat) :=
  let st := feedAll (lowerChunks chunks)
  let title := if st.title_found then st.extracted_title else "Unknown Title"
  let top10 := rank st.words 10
  let bid := (insert_book title link db).1
  let db1 := (insert_book title link db).2
  (insert_word_frequencies bid top10 db1, top10)

/-! ## Claim C10: frame property of `insert_word_frequencies` -/

/-- C10: `insert_word_frequencies(book_id, frequencies)` leaves every row of
the `book` table unchanged, and leaves every `word_frequencies` row whose
`book_id` differs from the given one unchanged (same rows, same order). -/
theorem insert_word_frequencies_frame (bid : Nat) (freqs : List (String × Nat)) (db : DB) :
    (insert_word_frequencies bid freqs db).books = db.books ∧
    (insert_word_frequencies bid freqs db).wfs.filter (fun r => !(r.book_id == bid)) =
      db.wfs.filter (fun r => !(r.book_id == bid)) := by
  refine ⟨rfl, ?_⟩
  simp only [insert_word_frequencies, List.filter_append]
  have h1 : (freqs.enum.map fun p =>
      (⟨db.nextWfId + p.1, bid, p.2.1, p.2.2⟩ : WFRow)).filter
        (fun r => !(r.book_id == bid)) = [] := by
    rw [List.filter_eq_nil_iff]
    rintro r hr
    rcases List.mem_map.1 hr with ⟨p, hp, rfl⟩
    simp
  rw [h1, List.append_nil, List.filter_filter]
  simp

/-! ## Claim C5: `insert_book` is idempotent on `(title, link)` -/

/-- C5: for any store whose `book` table has at most one row with the given
`(title, link)` (the natural-key invariant the store maintains), calling
`insert_book(t, l)` twice returns the same id both times, and afterwards
exactly one `book` row has that `(title, link)` pair. -/
theorem insert_book_idempotent (t l : String) (db : DB)
    (h : (db.books.filter (fun b => b.title == t && b.link == l)).length ≤ 1) :
    (insert_book t l db).1 = (insert_book t l (insert_book t l db).2).1 ∧
    ((insert_book t l (insert_book t l db).2).2.books.filter
        (fun b => b.title == t && b.link == l)).length = 1 := by
  cases hf : db.books.find? (fun b => b.title == t && b.link == l) with
  | some b =>
    have hpred := List.find?_some hf
    have hmem := List.mem_of_find?_eq_some hf
    have hone : 1 ≤ (db.books.filter (fun b => b.title == t && b.link == l)).length := by
      have : b ∈ db.books.filter (fun b => b.title == t && b.link == l) :=
        List.mem_filter.2 ⟨hmem, hpred⟩
      exact List.length_pos.2 (fun hnil => by simp [hnil] at this)
    have e1 : insert_book t l db = (b.id, db) := by
      simp [insert_book, hf]
    refine ⟨?_, ?_⟩
    · simp [e1]
    · simp only [e1]
      exact Nat.le_antisymm h hone
  | none =>
    have hnil : db.books.filter (fun b => b.title == t && b.link == l) = [] := by
      rw [List.filter_eq_nil_iff]
      exact fun a ha hp => List.find?_eq_none.1 hf a ha hp
    have hf2 : (db.books ++ [(⟨db.nextBookId, t, l⟩ : BookRow)]).find?
        (fun b => b.title == t && b.link == l) = some ⟨db.nextBookId, t, l⟩ := by
      rw [List.find?_append, hf]
      simp
    have e1 : insert_book t l db =
        (db.nextBookId,
         { db with books := db.books ++ [⟨db.nextBookId, t, l⟩],
                   nextBookId := db.nextBookId + 1 }) := by
      simp [insert_book, hf]
    have e2 : insert_book t l
        { db with books := db.books ++ [⟨db.nextBookId, t, l⟩],
                  nextBookId := db.nextBookId + 1 } =
        (db.nextBookId,
         { db with books := db.books ++ [⟨db.nextBookId, t, l⟩],
                   nextBookId := db.nextBookId + 1 }) := by
      simp [insert_book, hf2]
    refine ⟨?_, ?_⟩
    · simp [e1, e2]
    · simp only [e1, e2]
      simp [List.filter_append, hnil]

/-- C5 witness: the idempotence theorem applied to the empty store. -/
theorem insert_book_idempotent_witness :
    (insert_book "t" "L" emptyDB).1 =
      (insert_book "t" "L" (insert_book "t" "L" emptyDB).2).1 ∧
    ((insert_book "t" "L" (insert_book "t" "L" emptyDB).2).2.books.filter
        (fun b => b.title == "t" && b.link == "L")).length = 1 :=
  insert_book_idempotent "t" "L" emptyDB (by decide)

/-! ## Claim C1: the not-found outcome of `fetch_frequencies_by_title` -/

/-- C1 counterexample: the claimed distinguished not-found outcome does not
exist.  In a store holding one book titled `present` with no cached rows,
looking up the nonexistent title `absent` returns exactly the same value
(`[]`) as looking up the existing-but-empty `present`, so the caller cannot
tell the two apart. -/
theorem fetch_notFound_not_distinguished :
    fetch_frequencies_by_title "absent" ⟨[⟨1, "present", "L"⟩], [], 2, 1⟩ =
      fetch_frequencies_by_title "present" ⟨[⟨1, "present", "L"⟩], [], 2, 1⟩ ∧
    fetch_frequencies_by_title "absent" ⟨[⟨1, "present", "L"⟩], [], 2, 1⟩ = [] ∧
    (DB.books ⟨[⟨1, "present", "L"⟩], [], 2, 1⟩).find?
      (fun b => b.title == "absent") = none ∧
    (DB.books ⟨[⟨1, "present", "L"⟩], [], 2, 1⟩).find?
      (fun b => b.title == "present") = some ⟨1, "present", "L"⟩ := by
  refine ⟨rfl, rfl, rfl, rfl⟩

/-- C1 (amended): `fetch_frequencies_by_title` returns the empty list when no
book row matches the title, which is the same value it returns for an
existing book with an empty cached ranking; the two outcomes are therefore
not distinguishable from the returned value. -/
theorem fetch_notFound_empty (title : String) (db : DB) :
    (db.books.find? (fun b => b.title == title) = none →
      fetch_frequencies_by_title title db = []) ∧
    (∀ b : BookRow, db.books.find? (fun b2 => b2.title == title) = some b →
      db.wfs.filter (fun r => r.book_id == b.id) = [] →
      fetch_frequencies_by_title title db = []) := by
  constructor
  · intro h
    simp [fetch_frequencies_by_title, h]
  · intro b hb hw
    simp [fetch_frequencies_by_title, hb, hw, sortDesc]

/-- C1 witness: the amended theorem applied at concrete stores, one lookup of
a missing title and one lookup of an existing title with no cached rows. -/
theorem fetch_notFound_empty_witness :
    fetch_frequencies_by_title "x" emptyDB = [] ∧
    fetch_frequencies_by_title "here" ⟨[⟨5, "here", "L"⟩], [⟨1, 9, "w", 3⟩], 6, 2⟩ = [] :=
  ⟨(fetch_notFound_empty "x" emptyDB).1 (by decide),
   (fetch_notFound_empty "here" ⟨[⟨5, "here", "L"⟩], [⟨1, 9, "w", 3⟩], 6, 2⟩).2
     ⟨5, "here", "L"⟩ (by decide) (by decide)⟩

/-! ## Claim C4: replace-on-rewrite semantics and the at-most-10 invariant -/

/-- Invariant: every document id owns at most 10 `word_frequencies` rows. -/
def MaxTenPerBook (db : DB) : Prop :=
  ∀ bid : Nat, (db.wfs.filter (fun r => r.book_id == bid)).length ≤ 10

theorem wfs_filter_replaced (bid : Nat) (freqs : List (String × Nat)) (db : DB) :
    (insert_word_frequencies bid freqs db).wfs.filter (fun r => r.book_id == bid) =
      freqs.enum.map (fun p => ⟨db.nextWfId + p.1, bid, p.2.1, p.2.2⟩) := by
  simp only [insert_word_frequencies, List.filter_append]
  have h1 : (db.wfs.filter fun r => !(r.book_id == bid)).filter
      (fun r => r.book_id == bid) = [] := by
    rw [List.filter_filter, List.filter_eq_nil_iff]
    intro a ha
    simp
  have h2 : (freqs.enum.map fun p =>
      (⟨db.nextWfId + p.1, bid, p.2.1, p.2.2⟩ : WFRow)).filter
        (fun r => r.book_id == bid) =
      freqs.enum.map fun p => ⟨db.nextWfId + p.1, bid, p.2.1, p.2.2⟩ := by
    rw [List.filter_eq_self]
    intro a ha
    rcases List.mem_map.1 ha with ⟨p, hp, rfl⟩
    simp
  rw [h1, h2, List.nil_append]

theorem map_proj_enumRows (bid n : Nat) (freqs : List (String × Nat)) :
    (freqs.enum.map (fun p => (⟨n + p.1, bid, p.2.1, p.2.2⟩ : WFRow))).map
      (fun r => (r.word, r.frequency)) = freqs := by
  rw [List.map_map]
  have h : ((fun r : WFRow => (r.word, r.frequency)) ∘
      fun p : Nat × (String × Nat) => (⟨n + p.1, bid, p.2.1, p.2.2⟩ : WFRow)) =
      Prod.snd := by
    funext p
    rfl
  rw [h, List.enum_eq_enumFrom, List.enumFrom_map_snd]

theorem wfs_filter_replaced_other (bid bid2 : Nat) (freqs : List (String × Nat))
    (db : DB) (h : bid2 ≠ bid) :
    List.Sublist
      ((insert_word_frequencies bid freqs db).wfs.filter (fun r => r.book_id == bid2))
      (db.wfs.filter (fun r => r.book_id == bid2)) := by
  simp only [insert_word_frequencies, List.filter_append]
  have h2 : (freqs.enum.map fun p =>
      (⟨db.nextWfId + p.1, bid, p.2.1, p.2.2⟩ : WFRow)).filter
        (fun r => r.book_id == bid2) = [] := by
    rw [List.filter_eq_nil_iff]
    intro a ha
    rcases List.mem_map.1 ha with ⟨p, hp, rfl⟩
    simp [Ne.symm h]
  rw [h2, List.append_nil]
  exact (List.filter_sublist db.wfs).filter _

theorem rank_length_le (tokens : List String) (limit : Nat) :
    (rank tokens limit).length ≤ limit := by
  simp only [rank, List.length_take]
  omega

theorem insert_book_wfs (t l : String) (db : DB) :
    (insert_book t l db).2.wfs = db.wfs := by
  unfold insert_book
  cases db.books.find? (fun b => b.title == t && b.link == l) <;> rfl

theorem maxTen_replace (bid : Nat) (freqs : List (String × Nat)) (db : DB)
    (h10 : MaxTenPerBook db) (hlen : freqs.length ≤ 10) :
    MaxTenPerBook (insert_word_frequencies bid freqs db) := by
  intro bid2
  by_cases h : bid2 = bid
  · subst h
    rw [wfs_filter_replaced]
    simpa using hlen
  · exact le_trans (wfs_filter_replaced_other bid bid2 freqs db h).length_le (h10 bid2)

/-- C4: `insert_word_frequencies` removes every previously stored row of the
given document id and then stores exactly the given ranking (in order), so
no pair of the prior ranking that is absent from the new ranking survives;
and both store operations of the pipeline (`insert_book` and a full
ingestion, whose ranking has at most 10 entries) preserve the invariant that
every document id owns at most 10 `word_frequencies` rows. -/
theorem insert_word_frequencies_replaces (bid : Nat) (freqs : List (String × Nat))
    (db : DB) (t link : String) (chunks : List String)
    (h10 : MaxTenPerBook db) :
    ((insert_word_frequencies bid freqs db).wfs.filter
        (fun r => r.book_id == bid)).map (fun r => (r.word, r.frequency)) = freqs ∧
    (∀ p : String × Nat, p ∉ freqs →
      p ∉ ((insert_word_frequencies bid freqs db).wfs.filter
          (fun r => r.book_id == bid)).map (fun r => (r.word, r.frequency))) ∧
    MaxTenPerBook (insert_book t link db).2 ∧
    MaxTenPerBook (ingest link chunks db).1 := by
  have hA : ((insert_word_frequencies bid freqs db).wfs.filter
      (fun r => r.book_id == bid)).map (fun r => (r.word, r.frequency)) = freqs := by
    rw [wfs_filter_replaced, map_proj_enumRows]
  refine ⟨hA, ?_, ?_, ?_⟩
  · intro p hp
    rw [hA]
    exact hp
  · intro bid2
    rw [insert_book_wfs]
    exact h10 bid2
  · show MaxTenPerBook (insert_word_frequencies (insert_book _ link db).1
      (rank (feedAll (lowerChunks chunks)).words 10) (insert_book _ link db).2)
    refine maxTen_replace _ _ _ (fun bid2 => ?_) (rank_length_le _ 10)
    rw [insert_book_wfs]
    exact h10 bid2

/-- C4 witness: the replace theorem applied to the empty store and a
one-entry ranking. -/
theorem insert_word_frequencies_replaces_witness :
    ((insert_word_frequencies 1 [("a", 2)] emptyDB).wfs.filter
        (fun r => r.book_id == 1)).map (fun r => (r.word, r.frequency)) = [("a", 2)] ∧
    MaxTenPerBook (ingest "L" ["x y"] emptyDB).1 :=
  ⟨(insert_word_frequencies_replaces 1 [("a", 2)] emptyDB "t" "L" ["x y"]
      (fun _ => by simp [emptyDB])).1,
   (insert_word_frequencies_replaces 1 [("a", 2)] emptyDB "t" "L" ["x y"]
      (fun _ => by simp [emptyDB])).2.2.2⟩

/-! ## Claim C2: correctness of the frequency ranking -/

/-- Index of the first occurrence of `w` in `l` (`l.length` if absent). -/
def firstIdx (l : List String) (w : String) : Nat :=
  match l with
  | [] => 0
  | x :: xs => if x == w then 0 else firstIdx xs w + 1

theorem firstIdx_append_of_mem {w : String} {l : List String} (l2 : List String)
    (h : w ∈ l) : firstIdx (l ++ l2) w = firstIdx l w := by
  induction l with
  | nil => cases h
  | cons x xs ih =>
    by_cases hx : (x == w) = true
    · simp [firstIdx, hx]
    · have hw : w ∈ xs := by
        rcases List.mem_cons.1 h with rfl | h'
        · exact absurd (beq_iff_eq.2 rfl) hx
        · exact h'
      simp [firstIdx, hx, ih hw]

theorem firstIdx_lt_length {w : String} {l : List String} (h : w ∈ l) :
    firstIdx l w < l.length := by
  induction l with
  | nil => cases h
  | cons x xs ih =>
    by_cases hx : (x == w) = true
    · simp [firstIdx, hx]
    · have hw : w ∈ xs := by
        rcases List.mem_cons.1 h with rfl | h'
        · exact absurd (beq_iff_eq.2 rfl) hx
        · exact h'
      simp only [firstIdx, hx, if_false, List.length_cons]
      exact Nat.succ_lt_succ (ih hw)

theorem firstIdx_append_of_not_mem {w : String} {l : List String} (l2 : List String)
    (h : w ∉ l) : firstIdx (l ++ l2) w = l.length + firstIdx l2 w := by
  induction l with
  | nil => simp [firstIdx]
  | cons x xs ih =>
    have hx : ¬((x == w) = true) := fun hb =>
      h (beq_iff_eq.1 hb ▸ List.mem_cons_self x xs)
    have hw : w ∉ xs := fun h' => h (List.mem_cons_of_mem _ h')
    have ih' := ih hw
    rw [List.cons_append]
    show (if (x == w) = true then 0 else firstIdx (xs ++ l2) w + 1) =
      (x :: xs).length + firstIdx l2 w
    rw [if_neg hx, ih']
    simp only [List.length_cons]
    omega

/-- Invariant of the counting loop after processing the token prefix `pref`:
the association list holds the exact occurrence counts of the words seen so
far, its keys are exactly the words seen so far, and its entries are ordered
by first occurrence. -/
def FreqInv (pref : List String) (freq : List (String × Nat)) : Prop :=
  (∀ p ∈ freq, p.2 = pref.count p.1) ∧
  (∀ w : String, w ∈ pref ↔ w ∈ freq.map Prod.fst) ∧
  freq.Pairwise (fun a b => firstIdx pref a.1 < firstIdx pref b.1)

theorem freqInv_bump (pref : List String) (freq : List (String × Nat)) (w : String)
    (h : FreqInv pref freq) : FreqInv (pref ++ [w]) (bump freq w) := by
  obtain ⟨hc, hm, hp⟩ := h
  by_cases hw : freq.any (fun p => p.1 == w) = true
  · -- the word is already a key: its entry is incremented in place
    rcases List.any_eq_true.1 hw with ⟨q, hq, hqw⟩
    have hqw' : q.1 = w := beq_iff_eq.1 hqw
    have hkeys : (freq.map (fun p => if p.1 == w then (p.1, p.2 + 1) else p)).map
        Prod.fst = freq.map Prod.fst := by
      rw [List.map_map]
      refine List.map_congr_left ?_
      intro p _
      by_cases hpw : p.1 = w <;> simp [hpw]
    have hmem : ∀ p, p ∈ freq → p.1 ∈ pref := by
      intro p hpmem
      exact (hm p.1).2 (List.mem_map.2 ⟨p, hpmem, rfl⟩)
    rw [bump, if_pos hw]
    refine ⟨?_, ?_, ?_⟩
    · intro p hpmem
      rcases List.mem_map.1 hpmem with ⟨q2, hq2, rfl⟩
      by_cases hpw : (q2.1 == w) = true
      · have hq2w : q2.1 = w := beq_iff_eq.1 hpw
        simp only [hpw, if_true]
        simp [List.count_append, hc q2 hq2, List.count_cons, hq2w]
      · simp only [hpw, if_false]
        have hne : ¬(w == q2.1) = true := fun hb =>
          hpw (beq_iff_eq.2 (beq_iff_eq.1 hb).symm)
        simp [List.count_append, hc q2 hq2, List.count_cons, hne]
    · intro x
      rw [hkeys]
      constructor
      · intro hx
        rcases List.mem_append.1 hx with hx' | hx'
        · exact (hm x).1 hx'
        · have : x = w := by simpa using hx'
          subst this
          exact List.mem_map.2 ⟨q, hq, hqw'⟩
      · intro hx
        exact List.mem_append_left _ ((hm x).2 hx)
    · rw [List.pairwise_map]
      refine hp.imp_of_mem ?_
      intro a b ha hb hab
      have hfa : (if (a.1 == w) = true then (a.1, a.2 + 1) else a).1 = a.1 := by
        by_cases h1 : (a.1 == w) = true <;> simp [h1]
      have hfb : (if (b.1 == w) = true then (b.1, b.2 + 1) else b).1 = b.1 := by
        by_cases h1 : (b.1 == w) = true <;> simp [h1]
      rw [hfa, hfb, firstIdx_append_of_mem _ (hmem a ha),
        firstIdx_append_of_mem _ (hmem b hb)]
      exact hab
  · -- new word: appended with count 1
    have hnokey : w ∉ freq.map Prod.fst := by
      intro hk
      rcases List.mem_map.1 hk with ⟨p, hpmem, hpw⟩
      exact hw (List.any_eq_true.2 ⟨p, hpmem, beq_iff_eq.2 hpw⟩)
    have hnopref : w ∉ pref := fun hx => hnokey ((hm w).1 hx)
    have hmem : ∀ p, p ∈ freq → p.1 ∈ pref := by
      intro p hpmem
      exact (hm p.1).2 (List.mem_map.2 ⟨p, hpmem, rfl⟩)
    have hne : ∀ p, p ∈ freq → p.1 ≠ w := by
      intro p hpmem hpw
      exact hnopref (hpw ▸ hmem p hpmem)
    rw [bump, if_neg hw]
    refine ⟨?_, ?_, ?_⟩
    · intro p hpmem
      rcases List.mem_append.1 hpmem with hp' | hp'
      · have hnew : ¬(w == p.1) = true := fun hb =>
          hne p hp' (beq_iff_eq.1 hb).symm
        simp [List.count_append, hc p hp', List.count_cons, hnew]
      · have : p = (w, 1) := by simpa using hp'
        subst this
        simp [List.count_append, List.count_cons,
          List.count_eq_zero_of_not_mem hnopref]
    · intro x
      simp only [List.map_append, List.map_cons, List.map_nil]
      constructor
      · intro hx
        rcases List.mem_append.1 hx with hx' | hx'
        · exact List.mem_append_left _ ((hm x).1 hx')
        · have : x = w := by simpa using hx'
          subst this
          exact List.mem_append_right _ (by simp)
      · intro hx
        rcases List.mem_append.1 hx with hx' | hx'
        · exact List.mem_append_left _ ((hm x).2 hx')
        · have : x = w := by simpa using hx'
          subst this
          exact List.mem_append_right _ (by simp)
    · rw [List.pairwise_append]
      refine ⟨?_, by simp, ?_⟩
      · refine hp.imp_of_mem ?_
        intro a b ha hb hab
        rw [firstIdx_append_of_mem _ (hmem a ha), firstIdx_append_of_mem _ (hmem b hb)]
        exact hab
      · intro a ha b hb
        have hb' : b = (w, 1) := by simpa using hb
        subst hb'
        rw [firstIdx_append_of_mem _ (hmem a ha),
          firstIdx_append_of_not_mem _ hnopref]
        have h1 : firstIdx pref a.1 < pref.length := firstIdx_lt_length (hmem a ha)
        have h2 : firstIdx [w] w = 0 := by simp [firstIdx]
        omega

theorem freqInv_foldl (ts pref : List String) (freq : List (String × Nat))
    (h : FreqInv pref freq) : FreqInv (pref ++ ts) (ts.foldl bump freq) := by
  induction ts generalizing pref freq with
  | nil => simpa using h
  | cons t ts ih =>
    have h1 := ih (pref ++ [t]) (bump freq t) (freqInv_bump pref freq t h)
    simpa [List.append_assoc] using h1

theorem freqInv_wordFreqs (tokens : List String) :
    FreqInv tokens (wordFreqs tokens) := by
  have h0 : FreqInv [] [] := ⟨by simp, by simp, List.Pairwise.nil⟩
  simpa using freqInv_foldl tokens [] [] h0

theorem mem_insertDesc (x a : String × Nat) (l : List (String × Nat)) :
    a ∈ insertDesc x l ↔ a = x ∨ a ∈ l := by
  induction l with
  | nil => simp [insertDesc]
  | cons y ys ih =>
    by_cases h : x.2 < y.2
    · rw [insertDesc, if_pos h]
      simp only [List.mem_cons, ih]
      tauto
    · rw [insertDesc, if_neg h]
      simp only [List.mem_cons]

theorem mem_sortDesc (a : String × Nat) (l : List (String × Nat)) :
    a ∈ sortDesc l ↔ a ∈ l := by
  induction l with
  | nil => simp [sortDesc]
  | cons x xs ih =>
    rw [sortDesc, mem_insertDesc]
    simp [ih]

theorem pairwise_insertDesc (T : String × Nat → String × Nat → Prop)
    (x : String × Nat) (l : List (String × Nat))
    (hl : l.Pairwise (fun a b => b.2 ≤ a.2 ∧ (a.2 = b.2 → T a b)))
    (hx : ∀ y ∈ l, T x y) :
    (insertDesc x l).Pairwise (fun a b => b.2 ≤ a.2 ∧ (a.2 = b.2 → T a b)) := by
  induction l with
  | nil => simp [insertDesc]
  | cons y ys ih =>
    rcases List.pairwise_cons.1 hl with ⟨hy, hys⟩
    by_cases h : x.2 < y.2
    · rw [insertDesc, if_pos h]
      refine List.pairwise_cons.2
        ⟨?_, ih hys (fun z hz => hx z (List.mem_cons_of_mem _ hz))⟩
      intro z hz
      rcases (mem_insertDesc x z ys).1 hz with rfl | hz'
      · exact ⟨Nat.le_of_lt h, fun he => ((Nat.lt_irrefl _ (he ▸ h)).elim)⟩
      · exact hy z hz'
    · rw [insertDesc, if_neg h]
      refine List.pairwise_cons.2 ⟨?_, hl⟩
      intro z hz
      rcases List.mem_cons.1 hz with rfl | hz'
      · exact ⟨Nat.le_of_not_lt h, fun _ => hx z (List.mem_cons_self _ _)⟩
      · rcases hy z hz' with ⟨hz2, _⟩
        exact ⟨Nat.le_trans hz2 (Nat.le_of_not_lt h),
          fun _ => hx z (List.mem_cons_of_mem _ hz')⟩

theorem pairwise_sortDesc (T : String × Nat → String × Nat → Prop)
    (l : List (String × Nat)) (hl : l.Pairwise T) :
    (sortDesc l).Pairwise (fun a b => b.2 ≤ a.2 ∧ (a.2 = b.2 → T a b)) := by
  induction l with
  | nil => simp [sortDesc]
  | cons x xs ih =>
    rcases List.pairwise_cons.1 hl with ⟨hx, hxs⟩
    exact pairwise_insertDesc T x (sortDesc xs) (ih hxs)
      (fun y hy => hx y ((mem_sortDesc y xs).1 hy))

/-- C2: for every token sequence and every limit, the ranking has at most
`limit` entries, is ordered by count descending with ties broken by the
order in which the tied words first appear in the token sequence, and every
returned count is the exact number of occurrences of that word in the full
token sequence. -/
theorem rank_spec (tokens : List String) (limit : Nat) :
    (rank tokens limit).length ≤ limit ∧
    (rank tokens limit).Pairwise (fun a b =>
      b.2 ≤ a.2 ∧ (a.2 = b.2 → firstIdx tokens a.1 < firstIdx tokens b.1)) ∧
    (∀ p ∈ rank tokens limit, p.2 = tokens.count p.1) := by
  obtain ⟨hc, hm, hp⟩ := freqInv_wordFreqs tokens
  refine ⟨rank_length_le tokens limit, ?_, ?_⟩
  · have h1 := pairwise_sortDesc _ _ hp
    exact List.Pairwise.sublist (List.take_sublist _ _) h1
  · intro p hple
    have h2 : p ∈ sortDesc (wordFreqs tokens) :=
      (List.take_sublist _ _).subset hple
    exact hc p ((mem_sortDesc _ _).1 h2)

/-! ## Character-level facts about the ASCII lowering -/

theorem uint32_le_iff (a b : UInt32) : a ≤ b ↔ a.toNat ≤ b.toNat := Iff.rfl

theorem char_toLower_eq (c : Char) :
    Char.toLower c =
      if c.toNat ≥ 65 ∧ c.toNat ≤ 90 then Char.ofNat (c.toNat + 32) else c := rfl

theorem char_isUpper_iff (c : Char) :
    c.isUpper = true ↔ 65 ≤ c.toNat ∧ c.toNat ≤ 90 := by
  simp only [Char.isUpper, Bool.and_eq_true, decide_eq_true_eq]
  rw [ge_iff_le, uint32_le_iff, uint32_le_iff]
  exact Iff.rfl

theorem lower_range_facts (m : Nat) (h1 : 97 ≤ m) (h2 : m ≤ 122) :
    isWordChar (Char.ofNat m) = true ∧ (Char.ofNat m).isUpper = false ∧
      Char.toLower (Char.ofNat m) = Char.ofNat m := by
  interval_cases m <;> exact ⟨by decide, by decide, by decide⟩

theorem isWordChar_toLower (c : Char) : isWordChar (Char.toLower c) = isWordChar c := by
  rw [char_toLower_eq]
  by_cases h : c.toNat ≥ 65 ∧ c.toNat ≤ 90
  · rw [if_pos h]
    have hup : c.isUpper = true := (char_isUpper_iff c).2 h
    have hfacts := lower_range_facts (c.toNat + 32) (by omega) (by omega)
    rw [hfacts.1]
    simp [isWordChar, Char.isAlphanum, Char.isAlpha, hup]
  · rw [if_neg h]

theorem isUpper_toLower (c : Char) : (Char.toLower c).isUpper = false := by
  rw [char_toLower_eq]
  by_cases h : c.toNat ≥ 65 ∧ c.toNat ≤ 90
  · rw [if_pos h]
    exact (lower_range_facts (c.toNat + 32) (by omega) (by omega)).2.1
  · rw [if_neg h]
    rcases hb : c.isUpper with _ | _
    · rfl
    · exact absurd ((char_isUpper_iff c).1 hb) h

theorem toLower_toLower (c : Char) :
    Char.toLower (Char.toLower c) = Char.toLower c := by
  by_cases h : c.toNat ≥ 65 ∧ c.toNat ≤ 90
  · have h1 : Char.toLower c = Char.ofNat (c.toNat + 32) := by
      rw [char_toLower_eq, if_pos h]
    rw [h1]
    exact (lower_range_facts (c.toNat + 32) (by omega) (by omega)).2.2
  · have hc : Char.toLower c = c := by rw [char_toLower_eq, if_neg h]
    rw [hc, hc]

theorem map_toLower_idem (l : List Char) :
    (l.map Char.toLower).map Char.toLower = l.map Char.toLower := by
  rw [List.map_map]
  exact List.map_congr_left (fun c _ => toLower_toLower c)

/-! ## Claim C7: tokenization yields the maximal word-character runs -/

theorem dropWhile_head_false {α : Type} (p : α → Bool) :
    ∀ {l : List α} {c : α} {t : List α}, l.dropWhile p = c :: t → p c = false := by
  intro l
  induction l with
  | nil => intro c t h; cases h
  | cons x xs ih =>
    intro c t h
    rw [List.dropWhile_cons] at h
    split at h
    · exact ih h
    · rename_i hx
      cases h
      simpa using hx

theorem findWords_cons_pos (c : Char) (cs : List Char) (h : isWordChar c = true) :
    findWords (c :: cs) =
      (c :: cs.takeWhile isWordChar) :: findWords (cs.dropWhile isWordChar) := by
  rw [findWords, findWords, List.length_cons, findWordsF, if_pos h]
  have hd := (@List.dropWhile_sublist Char cs isWordChar).length_le
  rw [findWordsF_congr cs.length (cs.dropWhile isWordChar).length
    (cs.dropWhile isWordChar) hd (Nat.le_refl _)]

theorem findWords_cons_neg (c : Char) (cs : List Char) (h : isWordChar c = false) :
    findWords (c :: cs) = findWords cs := by
  rw [findWords, findWords, List.length_cons, findWordsF, if_neg (by simp [h])]

theorem findWords_eq_splitOnP (l : List Char) :
    findWords l = (l.splitOnP (fun c => !isWordChar c)).filter (fun r => !r.isEmpty) := by
  generalize hn : l.length = n
  induction n using Nat.strong_induction_on generalizing l with
  | _ n ih =>
    cases l with
    | nil =>
      simp [findWords, findWordsF, List.splitOnP_nil]
    | cons c cs =>
      by_cases hc : isWordChar c = true
      · have hrun : ∀ x ∈ c :: cs.takeWhile isWordChar,
            ¬((fun c => !isWordChar c) x = true) := by
          intro x hx
          rcases List.mem_cons.1 hx with rfl | hx'
          · simp [hc]
          · simp [List.mem_takeWhile_imp hx']
        rw [findWords_cons_pos c cs hc]
        cases hrest : cs.dropWhile isWordChar with
        | nil =>
          have hall : cs.takeWhile isWordChar = cs := by
            have h2 := List.takeWhile_append_dropWhile isWordChar cs
            rw [hrest, List.append_nil] at h2
            exact h2
          have hsingle : (c :: cs).splitOnP (fun c => !isWordChar c) = [c :: cs] :=
            List.splitOnP_eq_single _ _ (fun x hx => hrun x (by rw [hall]; exact hx))
          rw [hsingle]
          simp [findWords, findWordsF, hall]
        | cons d rest' =>
          have hd : isWordChar d = false := dropWhile_head_false isWordChar hrest
          have hcons : c :: cs = (c :: cs.takeWhile isWordChar) ++ d :: rest' := by
            have h2 := List.takeWhile_append_dropWhile isWordChar cs
            rw [hrest] at h2
            rw [List.cons_append, h2]
          have hlen : rest'.length < n := by
            have h3 := (@List.dropWhile_sublist Char cs isWordChar).length_le
            rw [hrest] at h3
            simp only [List.length_cons] at h3 hn
            omega
          rw [hcons, List.splitOnP_first _ _ hrun d (by simp [hd]) rest']
          rw [List.filter_cons, if_pos (by simp)]
          rw [findWords_cons_neg d rest' hd]
          rw [ih rest'.length hlen rest' rfl]
      · have hc' : isWordChar c = false := by simpa using hc
        rw [findWords_cons_neg c cs hc', List.splitOnP_cons, if_pos (by simp [hc'])]
        rw [List.filter_cons, if_neg (by simp)]
        have hlen : cs.length < n := by
          simp only [List.length_cons] at hn
          omega
        exact ih cs.length hlen cs rfl

theorem findWords_map_toLower (l : List Char) :
    findWords (l.map Char.toLower) = (findWords l).map (List.map Char.toLower) := by
  generalize hn : l.length = n
  induction n using Nat.strong_induction_on generalizing l with
  | _ n ih =>
    cases l with
    | nil => simp [findWords, findWordsF]
    | cons c cs =>
      by_cases hc : isWordChar c = true
      · have hc2 : isWordChar (Char.toLower c) = true := by
          rw [isWordChar_toLower]; exact hc
        have hlen : (cs.dropWhile isWordChar).length < n := by
          have h3 := (@List.dropWhile_sublist Char cs isWordChar).length_le
          simp only [List.length_cons] at hn
          omega
        rw [List.map_cons, findWords_cons_pos _ _ hc2, findWords_cons_pos _ _ hc]
        rw [List.takeWhile_map, List.dropWhile_map]
        rw [show (isWordChar ∘ Char.toLower) = isWordChar from funext isWordChar_toLower]
        rw [List.map_cons, List.map_cons]
        rw [ih (cs.dropWhile isWordChar).length hlen _ rfl]
      · have hc' : isWordChar c = false := by simpa using hc
        have hc2 : isWordChar (Char.toLower c) = false := by
          rw [isWordChar_toLower]; exact hc'
        have hlen : cs.length < n := by
          simp only [List.length_cons] at hn
          omega
        rw [List.map_cons, findWords_cons_neg _ _ hc2, findWords_cons_neg _ _ hc']
        exact ih cs.length hlen cs rfl

/-- The claim side of C7, written from the claim's own words: the maximal
runs of alphanumeric/underscore characters of the text, in document order;
all other characters act only as separators. -/
def specMaximalRuns (l : List Char) : List (List Char) :=
  (l.splitOnP (fun c => !isWordChar c)).filter (fun r => !r.isEmpty)

/-- C7: for every input chunk, the token sequence collected by the parser is
exactly the list of maximal alphanumeric/underscore runs of the chunk, in
document order, each lowercased. -/
theorem tokensOf_eq_maximal_runs (data : String) :
    tokensOf data =
      (specMaximalRuns data.data).map (fun r => String.mk (r.map Char.toLower)) := by
  have h1 : (strLower data).data = data.data.map Char.toLower := rfl
  rw [tokensOf, h1, findWords_map_toLower, findWords_eq_splitOnP, List.map_map]
  rfl

/-! ## Claim C8: tokenization is idempotent on its own output -/

/-- The claim's construction: join a token list with single spaces. -/
def joinChars : List (List Char) → List Char
  | [] => []
  | [t] => t
  | t :: ts => t ++ ' ' :: joinChars ts

/-- Joining tokens with single spaces, as a string. -/
def joinWithSpaces (ts : List String) : String :=
  String.mk (joinChars (ts.map String.data))

theorem findWords_runs_spec (l : List Char) :
    ∀ r ∈ findWords l, r ≠ [] ∧ ∀ c ∈ r, isWordChar c = true := by
  generalize hn : l.length = n
  induction n using Nat.strong_induction_on generalizing l with
  | _ n ih =>
    cases l with
    | nil =>
      intro r hr
      rw [findWords] at hr
      cases hr
    | cons c cs =>
      by_cases hc : isWordChar c = true
      · rw [findWords_cons_pos c cs hc]
        intro r hr
        rcases List.mem_cons.1 hr with rfl | hr'
        · refine ⟨by simp, ?_⟩
          intro x hx
          rcases List.mem_cons.1 hx with rfl | hx'
          · exact hc
          · exact List.mem_takeWhile_imp hx'
        · have hlen : (cs.dropWhile isWordChar).length < n := by
            have h3 := (@List.dropWhile_sublist Char cs isWordChar).length_le
            simp only [List.length_cons] at hn
            omega
          exact ih _ hlen _ rfl r hr'
      · have hc' : isWordChar c = false := by simpa using hc
        rw [findWords_cons_neg c cs hc']
        have hlen : cs.length < n := by
          simp only [List.length_cons] at hn
          omega
        exact fun r hr => ih cs.length hlen cs rfl r hr

theorem findWords_chars_subset (l : List Char) :
    ∀ r ∈ findWords l, ∀ c ∈ r, c ∈ l := by
  generalize hn : l.length = n
  induction n using Nat.strong_induction_on generalizing l with
  | _ n ih =>
    cases l with
    | nil =>
      intro r hr
      rw [findWords] at hr
      cases hr
    | cons c cs =>
      by_cases hc : isWordChar c = true
      · rw [findWords_cons_pos c cs hc]
        intro r hr
        rcases List.mem_cons.1 hr with rfl | hr'
        · intro x hx
          rcases List.mem_cons.1 hx with rfl | hx'
          · exact List.mem_cons_self _ _
          · exact List.mem_cons_of_mem _
              ((List.takeWhile_sublist isWordChar).subset hx')
        · have hlen : (cs.dropWhile isWordChar).length < n := by
            have h3 := (@List.dropWhile_sublist Char cs isWordChar).length_le
            simp only [List.length_cons] at hn
            omega
          intro x hx
          exact List.mem_cons_of_mem _
            ((List.dropWhile_sublist isWordChar).subset (ih _ hlen _ rfl r hr' x hx))
      · have hc' : isWordChar c = false := by simpa using hc
        rw [findWords_cons_neg c cs hc']
        have hlen : cs.length < n := by
          simp only [List.length_cons] at hn
          omega
        exact fun r hr x hx =>
          List.mem_cons_of_mem _ (ih cs.length hlen cs rfl r hr x hx)

theorem takeWhile_all_append (p : Char → Bool) (xs ys : List Char)
    (h : ∀ x ∈ xs, p x = true) : (xs ++ ys).takeWhile p = xs ++ ys.takeWhile p := by
  induction xs with
  | nil => simp
  | cons x xs ih =>
    rw [List.cons_append, List.takeWhile_cons_of_pos (h x (List.mem_cons_self _ _)),
      ih (fun a ha => h a (List.mem_cons_of_mem _ ha)), List.cons_append]

theorem findWords_all_word (r : List Char) (hr : r ≠ [])
    (hall : ∀ c ∈ r, isWordChar c = true) : findWords r = [r] := by
  cases r with
  | nil => exact absurd rfl hr
  | cons c cs =>
    rw [findWords_cons_pos c cs (hall c (List.mem_cons_self c cs))]
    have hd : cs.dropWhile isWordChar = [] := by
      rw [List.dropWhile_eq_nil_iff]
      exact fun x hx => hall x (List.mem_cons_of_mem _ hx)
    have ht : cs.takeWhile isWordChar = cs := by
      have h2 := List.takeWhile_append_dropWhile isWordChar cs
      rw [hd, List.append_nil] at h2
      exact h2
    rw [hd, ht]
    rfl

theorem findWords_append_run (r : List Char) (d : Char) (rest : List Char)
    (hr : r ≠ []) (hall : ∀ c ∈ r, isWordChar c = true) (hd : isWordChar d = false) :
    findWords (r ++ d :: rest) = r :: findWords rest := by
  cases r with
  | nil => exact absurd rfl hr
  | cons c cs =>
    have hcs : ∀ x ∈ cs, isWordChar x = true :=
      fun x hx => hall x (List.mem_cons_of_mem _ hx)
    rw [List.cons_append, findWords_cons_pos c _ (hall c (List.mem_cons_self _ _))]
    have ht : (cs ++ d :: rest).takeWhile isWordChar = cs := by
      rw [takeWhile_all_append isWordChar cs (d :: rest) hcs,
        List.takeWhile_cons_of_neg (by simp [hd]), List.append_nil]
    have hdr : (cs ++ d :: rest).dropWhile isWordChar = d :: rest := by
      rw [List.dropWhile_append_of_pos hcs, List.dropWhile_cons_of_neg (by simp [hd])]
    rw [ht, hdr, findWords_cons_neg d rest hd]

theorem findWords_joinChars (rs : List (List Char))
    (h : ∀ r ∈ rs, r ≠ [] ∧ ∀ c ∈ r, isWordChar c = true) :
    findWords (joinChars rs) = rs := by
  induction rs with
  | nil => rfl
  | cons r rs ih =>
    cases rs with
    | nil =>
      have hr := h r (List.mem_cons_self r [])
      exact findWords_all_word r hr.1 hr.2
    | cons r2 rs2 =>
      have hr := h r (List.mem_cons_self _ _)
      rw [show joinChars (r :: r2 :: rs2) = r ++ ' ' :: joinChars (r2 :: rs2) from rfl]
      rw [findWords_append_run r ' ' _ hr.1 hr.2 (by decide)]
      rw [ih (fun x hx => h x (List.mem_cons_of_mem _ hx))]

theorem map_toLower_joinChars (rs : List (List Char)) :
    (joinChars rs).map Char.toLower = joinChars (rs.map (List.map Char.toLower)) := by
  induction rs with
  | nil => rfl
  | cons r rs ih =>
    cases rs with
    | nil => rfl
    | cons r2 rs2 =>
      show (r ++ ' ' :: joinChars (r2 :: rs2)).map Char.toLower = _
      rw [List.map_append, List.map_cons, ih,
        show Char.toLower ' ' = ' ' from by decide]
      rfl

/-- C8: tokenizing the join-with-single-spaces of a tokenization's output
reproduces the same token sequence. -/
theorem tokensOf_idempotent (s : String) :
    tokensOf (joinWithSpaces (tokensOf s)) = tokensOf s := by
  have hdata : (tokensOf s).map String.data = findWords (s.data.map Char.toLower) := by
    rw [tokensOf, List.map_map]
    have h2 : (String.data ∘ String.mk) = (id : List Char → List Char) := by
      funext r
      rfl
    rw [h2, List.map_id]
    rfl
  have hruns := findWords_runs_spec (s.data.map Char.toLower)
  have hsub := findWords_chars_subset (s.data.map Char.toLower)
  have hfix : ∀ r ∈ findWords (s.data.map Char.toLower),
      r.map Char.toLower = r := by
    intro r hr
    have h3 : ∀ c ∈ r, Char.toLower c = c := by
      intro c hc
      rcases List.mem_map.1 (hsub r hr c hc) with ⟨x, _, rfl⟩
      exact toLower_toLower x
    calc r.map Char.toLower = r.map id := List.map_congr_left (fun c hc => h3 c hc)
      _ = r := List.map_id r
  have hjoin : (joinWithSpaces (tokensOf s)).data.map Char.toLower =
      joinChars ((tokensOf s).map String.data) := by
    rw [show (joinWithSpaces (tokensOf s)).data =
        joinChars ((tokensOf s).map String.data) from rfl]
    rw [map_toLower_joinChars, hdata]
    congr 1
    calc (findWords (s.data.map Char.toLower)).map (List.map Char.toLower)
        = (findWords (s.data.map Char.toLower)).map id :=
          List.map_congr_left (fun r hr => hfix r hr)
      _ = _ := List.map_id _
  have hfinal : findWords ((strLower (joinWithSpaces (tokensOf s))).data) =
      (tokensOf s).map String.data := by
    rw [show (strLower (joinWithSpaces (tokensOf s))).data =
        (joinWithSpaces (tokensOf s)).data.map Char.toLower from rfl]
    rw [hjoin]
    refine findWords_joinChars _ ?_
    intro r hr
    rw [hdata] at hr
    exact hruns r hr
  rw [tokensOf, hfinal, List.map_map]
  have h4 : (String.mk ∘ String.data) = (id : String → String) := by
    funext t
    rfl
  rw [h4, List.map_id]

/-! ## Claim C9: stored titles carry no uppercase characters -/

theorem stripChars_subset (l : List Char) : ∀ c ∈ stripChars l, c ∈ l := by
  intro c hc
  rw [stripChars] at hc
  have h1 := (List.mem_reverse).1 hc
  have h2 := (List.dropWhile_sublist isPySpace).subset h1
  have h3 := (List.mem_reverse).1 h2
  exact (List.dropWhile_sublist isPySpace).subset h3

theorem attemptRest_subset {rest cap : List Char} (h : attemptRest rest = some cap) :
    ∀ c ∈ cap, c ∈ rest := by
  rw [attemptRest] at h
  cases hk : pickK rest (rest.takeWhile isPySpace).length with
  | none => rw [hk] at h; cases h
  | some k =>
    rw [hk] at h
    cases h
    intro c hc
    exact List.drop_subset _ _ ((List.takeWhile_sublist _).subset hc)

theorem trySearch_subset :
    ∀ {l cap : List Char}, trySearch l = some cap → ∀ c ∈ cap, c ∈ l := by
  intro l
  induction l with
  | nil => intro cap h; cases h
  | cons x xs ih =>
    intro cap h c hc
    rw [trySearch] at h
    by_cases hm : matchesCI (x :: xs) = true
    · rw [if_pos hm] at h
      cases ha : attemptRest ((x :: xs).drop 6) with
      | some cap2 =>
        rw [ha] at h
        cases h
        exact List.drop_subset _ _ (attemptRest_subset ha c hc)
      | none =>
        rw [ha] at h
        exact List.mem_cons_of_mem _ (ih h c hc)
    · rw [if_neg hm] at h
      exact List.mem_cons_of_mem _ (ih h c hc)

theorem handle_data_of_guard_false (st : ParserState) (d : String)
    (h : (!st.title_found && decide (titleLit <:+: d.data)) = false) :
    handle_data st d = { st with words := st.words ++ tokensOf d } := by
  rw [handle_data]
  simp [h]

theorem handle_data_of_found (st : ParserState) (d : String)
    (h : st.title_found = true) :
    handle_data st d = { st with words := st.words ++ tokensOf d } :=
  handle_data_of_guard_false st d (by simp [h])

theorem handle_data_of_nomatch (st : ParserState) (d : String)
    (hs : trySearch d.data = none) :
    handle_data st d = { st with words := st.words ++ tokensOf d } := by
  rw [handle_data]
  split
  · rw [hs]
  · rfl

theorem handle_data_of_match (st : ParserState) (d : String)
    (hg : st.title_found = false) (hin : titleLit <:+: d.data)
    (cap : List Char) (hs : trySearch d.data = some cap) :
    handle_data st d =
      { words := st.words ++ tokensOf d,
        extracted_title := String.mk (stripChars cap),
        title_found := true } := by
  rw [handle_data]
  rw [if_pos (by simp [hg, hin]), hs]

/-- The title, once extracted, contains no uppercase character. -/
def TitleLower (st : ParserState) : Prop :=
  st.title_found = true → ∀ c ∈ st.extracted_title.data, c.isUpper = false

theorem handle_data_titleLower (st : ParserState) (x : String)
    (h : TitleLower st) : TitleLower (handle_data st (strLower x)) := by
  by_cases hg : (!st.title_found && decide (titleLit <:+: (strLower x).data)) = true
  · have hg1 : st.title_found = false := by
      rcases Bool.and_eq_true_iff.1 hg with ⟨h1, _⟩
      simpa using h1
    have hg2 : titleLit <:+: (strLower x).data := by
      rcases Bool.and_eq_true_iff.1 hg with ⟨_, h2⟩
      simpa using h2
    cases hs : trySearch (strLower x).data with
    | none =>
      rw [handle_data_of_nomatch st _ hs]
      exact fun hf c hc => h hf c hc
    | some cap =>
      rw [handle_data_of_match st _ hg1 hg2 cap hs]
      intro _ c hc
      have hc2 : c ∈ cap := stripChars_subset _ c hc
      have hc3 : c ∈ (strLower x).data := trySearch_subset hs c hc2
      rcases List.mem_map.1 hc3 with ⟨y, _, rfl⟩
      exact isUpper_toLower y
  · rw [handle_data_of_guard_false st _ (by simpa using hg)]
    exact fun hf c hc => h hf c hc

theorem feedAll_lower_titleLower (chunks : List String) (st : ParserState)
    (h : TitleLower st) :
    TitleLower ((lowerChunks chunks).foldl handle_data st) := by
  induction chunks generalizing st with
  | nil => exact h
  | cons d ds ih =>
    rw [lowerChunks, List.map_cons, List.foldl_cons]
    exact ih (handle_data st (strLower d)) (handle_data_titleLower st d h)

theorem resolvedTitle_of_found (chunks : List String)
    (h : titleWasFound chunks = true) :
    resolvedTitle chunks = (feedAll (lowerChunks chunks)).extracted_title := by
  rw [titleWasFound] at h
  rw [resolvedTitle, if_pos h]

theorem resolvedTitle_of_not_found (chunks : List String)
    (h : titleWasFound chunks = false) :
    resolvedTitle chunks = "Unknown Title" := by
  rw [titleWasFound] at h
  rw [resolvedTitle, if_neg (by simp [h])]

/-- C9: for every successful ingestion, the stored title has no uppercase
character whenever a title was extracted from the (lowercased) content, and
is exactly `"Unknown Title"` otherwise; consequently a lookup title that
contains an uppercase letter never equals an extracted title. -/
theorem ingest_title_lowercase (chunks : List String) :
    (titleWasFound chunks = true →
      ∀ c ∈ (resolvedTitle chunks).data, c.isUpper = false) ∧
    (titleWasFound chunks = false → resolvedTitle chunks = "Unknown Title") ∧
    (∀ t : String, titleWasFound chunks = true →
      (∃ c ∈ t.data, c.isUpper = true) → t ≠ resolvedTitle chunks) := by
  have hinit : TitleLower initState := fun hf => by cases hf
  have hinv : TitleLower (feedAll (lowerChunks chunks)) :=
    feedAll_lower_titleLower chunks initState hinit
  have h1 : titleWasFound chunks = true →
      ∀ c ∈ (resolvedTitle chunks).data, c.isUpper = false := by
    intro hf c hc
    rw [resolvedTitle_of_found chunks hf] at hc
    exact hinv hf c hc
  refine ⟨h1, resolvedTitle_of_not_found chunks, ?_⟩
  rintro t hf ⟨c, hc, hcu⟩ rfl
  rw [h1 hf c hc] at hcu
  cases hcu

/-- C9 witness: the lowercase-title theorem applied at concrete documents. -/
theorem ingest_title_lowercase_witness :
    (∀ c ∈ (resolvedTitle ["TITLE: ABC"]).data, c.isUpper = false) ∧
    resolvedTitle ["no marker here"] = "Unknown Title" ∧
    "A" ≠ resolvedTitle ["TITLE: ABC"] :=
  ⟨(ingest_title_lowercase ["TITLE: ABC"]).1 (by decide),
   (ingest_title_lowercase ["no marker here"]).2.1 (by decide),
   (ingest_title_lowercase ["TITLE: ABC"]).2.2 "A" (by decide)
     ⟨'A', by decide, by decide⟩⟩

/-! ## Claim C3: the title-extraction rule -/

theorem pickK_hit (rest : List Char) (j : Nat) (c : Char)
    (hg : rest[j]? = some c) (hc : (c == '\n') = false) :
    pickK rest j = some j := by
  cases j with
  | zero => simp [pickK, hg, hc]
  | succ k => simp [pickK, hg, hc]

theorem attemptRest_of_line_nonspace (rest : List Char)
    (h : ∃ c ∈ rest.takeWhile (fun c => !(c == '\n')), isPySpace c = false) :
    attemptRest rest =
      some ((rest.drop (rest.takeWhile isPySpace).length).takeWhile
        (fun c => !(c == '\n'))) := by
  rcases h with ⟨w, hw, hws⟩
  have hTD := List.takeWhile_append_dropWhile isPySpace rest
  cases hD : rest.dropWhile isPySpace with
  | nil =>
    rw [hD, List.append_nil] at hTD
    have hwT : w ∈ rest.takeWhile isPySpace := by
      rw [hTD]
      exact (List.takeWhile_sublist _).subset hw
    rw [List.mem_takeWhile_imp hwT] at hws
    cases hws
  | cons c0 D' =>
    have hc0 : isPySpace c0 = false := dropWhile_head_false isPySpace hD
    have hget : rest[(rest.takeWhile isPySpace).length]? = some c0 := by
      set T := rest.takeWhile isPySpace with hTdef
      have h7 : rest = T ++ c0 :: D' := by
        rw [← hTD, hD]
      rw [h7, List.getElem?_append_right (Nat.le_refl _), Nat.sub_self]
      simp
    have hnl : (c0 == '\n') = false := by
      rcases hb : c0 == '\n' with _ | _
      · rfl
      · have : c0 = '\n' := beq_iff_eq.1 hb
        rw [this] at hc0
        cases hc0
    rw [attemptRest, pickK_hit rest _ c0 hget hnl]

theorem matchesCI_prefix (rest : List Char) : matchesCI (titleLit ++ rest) = true := by
  rw [matchesCI, List.take_left' (show titleLit.length = 6 from rfl)]
  decide

theorem trySearch_at_first (pre rest : List Char)
    (hfix : pre.map Char.toLower = pre)
    (hno : ¬ (titleLit <:+: (pre ++ titleLit.dropLast)))
    (hline : ∃ c ∈ rest.takeWhile (fun c => !(c == '\n')), isPySpace c = false) :
    trySearch (pre ++ titleLit ++ rest) =
      some ((rest.drop (rest.takeWhile isPySpace).length).takeWhile
        (fun c => !(c == '\n'))) := by
  induction pre with
  | nil =>
    rw [List.nil_append]
    have hm := matchesCI_prefix rest
    rw [show titleLit ++ rest = 't' :: (['i', 't', 'l', 'e', ':'] ++ rest) from rfl]
      at hm ⊢
    rw [trySearch, if_pos hm]
    rw [show ('t' :: (['i', 't', 'l', 'e', ':'] ++ rest)).drop 6 = rest from
      @List.drop_left' Char titleLit rest 6 rfl]
    rw [attemptRest_of_line_nonspace rest hline]
  | cons p pre' ih =>
    have hfix' : pre'.map Char.toLower = pre' := by
      rw [List.map_cons] at hfix
      injection hfix
    have hno' : ¬ (titleLit <:+: (pre' ++ titleLit.dropLast)) := by
      intro hinf
      exact hno (List.infix_cons hinf)
    have hm : matchesCI (p :: (pre' ++ titleLit ++ rest)) = false := by
      rcases hb : matchesCI (p :: (pre' ++ titleLit ++ rest)) with _ | _
      · rfl
      · exfalso
        rw [matchesCI, beq_iff_eq] at hb
        have hb2 : (((p :: pre') ++ titleLit ++ rest).take 6).map Char.toLower =
            titleLit := hb
        have e1 : ((p :: pre') ++ titleLit ++ rest).take 6 =
            ((p :: pre') ++ titleLit.dropLast).take 6 := by
          rw [List.take_append_eq_append_take,
            show (p :: pre') ++ titleLit =
              ((p :: pre') ++ titleLit.dropLast) ++ [':'] from by
                rw [List.append_assoc]
                rfl,
            @List.take_append_eq_append_take Char ((p :: pre') ++ titleLit.dropLast) [':'] 6]
          have hl1 : (((p :: pre') ++ titleLit.dropLast) ++ [':']).length =
              pre'.length + 7 := by
            simp [titleLit]
          have hl2 : ((p :: pre') ++ titleLit.dropLast).length = pre'.length + 6 := by
            simp [titleLit]
          rw [hl1, hl2]
          rw [show 6 - (pre'.length + 7) = 0 from by omega,
            show 6 - (pre'.length + 6) = 0 from by omega]
          simp
        rw [e1] at hb2
        have e3 : ((p :: pre') ++ titleLit.dropLast).map Char.toLower =
            (p :: pre') ++ titleLit.dropLast := by
          rw [List.map_append, hfix,
            show (titleLit.dropLast).map Char.toLower = titleLit.dropLast from by
              decide]
        have e4 : titleLit <:+: ((p :: pre') ++ titleLit.dropLast) := by
          have h5 := (List.take_prefix 6 ((p :: pre') ++ titleLit.dropLast)).isInfix
        -- map the infix through toLower and rewrite both sides
          have h6 := List.IsInfix.map Char.toLower h5
          rw [e3, hb2] at h6
          exact h6
        exact hno e4
    rw [show (p :: pre') ++ titleLit ++ rest = p :: (pre' ++ titleLit ++ rest)
      from rfl]
    rw [trySearch, if_neg (by simp only [hm]; simp)]
    exact ih hfix' hno'

theorem takeWhile_append_of_exists_false (p : Char → Bool) (l1 l2 : List Char)
    (h : ∃ x ∈ l1, p x = false) : (l1 ++ l2).takeWhile p = l1.takeWhile p := by
  induction l1 with
  | nil =>
    rcases h with ⟨x, hx, _⟩
    cases hx
  | cons a l1 ih =>
    by_cases ha : p a = true
    · rw [List.cons_append, List.takeWhile_cons_of_pos ha,
        List.takeWhile_cons_of_pos ha]
      rcases h with ⟨x, hx, hpx⟩
      rcases List.mem_cons.1 hx with rfl | hx'
      · rw [ha] at hpx
        cases hpx
      · rw [ih ⟨x, hx', hpx⟩]
    · rw [List.cons_append, List.takeWhile_cons_of_neg ha,
        List.takeWhile_cons_of_neg ha]

theorem stripChars_ws_prefix (T X : List Char) (h : ∀ c ∈ T, isPySpace c = true) :
    stripChars (T ++ X) = stripChars X := by
  rw [stripChars, stripChars, List.dropWhile_append_of_pos h]

theorem strip_drop_ws (rest : List Char)
    (hline : ∃ c ∈ rest.takeWhile (fun c => !(c == '\n')), isPySpace c = false) :
    stripChars ((rest.drop (rest.takeWhile isPySpace).length).takeWhile
      (fun c => !(c == '\n'))) =
    stripChars (rest.takeWhile (fun c => !(c == '\n'))) := by
  have hTD := List.takeWhile_append_dropWhile isPySpace rest
  have hT : ∀ c ∈ rest.takeWhile isPySpace, (c == '\n') = false := by
    by_contra hcon
    push_neg at hcon
    rcases hcon with ⟨c, hc, hcne⟩
    have hcnl : (c == '\n') = true := by
      rcases hb : c == '\n' with _ | _
      · exact absurd hb hcne
      · rfl
    have hexf : ∃ x ∈ rest.takeWhile isPySpace, (fun c => !(c == '\n')) x = false :=
      ⟨c, hc, by simp [hcnl]⟩
    have heq : rest.takeWhile (fun c => !(c == '\n')) =
        (rest.takeWhile isPySpace).takeWhile (fun c => !(c == '\n')) := by
      conv_lhs => rw [← hTD]
      rw [takeWhile_append_of_exists_false _ _ _ hexf]
    rcases hline with ⟨w, hw, hws⟩
    rw [heq] at hw
    have hw2 : w ∈ rest.takeWhile isPySpace :=
      (List.takeWhile_sublist _).subset hw
    rw [List.mem_takeWhile_imp hw2] at hws
    cases hws
  have hTnl : ∀ c ∈ rest.takeWhile isPySpace, (fun c => !(c == '\n')) c = true := by
    intro c hc
    simp [hT c hc]
  have hdrop : rest.drop (rest.takeWhile isPySpace).length =
      rest.dropWhile isPySpace := by
    have h8 := List.drop_left (rest.takeWhile isPySpace) (rest.dropWhile isPySpace)
    rw [hTD] at h8
    exact h8
  have hsplit : rest.takeWhile (fun c => !(c == '\n')) =
      rest.takeWhile isPySpace ++
        (rest.dropWhile isPySpace).takeWhile (fun c => !(c == '\n')) := by
    have h9 := takeWhile_all_append (fun c => !(c == '\n'))
      (rest.takeWhile isPySpace) (rest.dropWhile isPySpace) hTnl
    rw [hTD] at h9
    exact h9
  rw [hdrop, hsplit,
    stripChars_ws_prefix _ _ (fun c hc => List.mem_takeWhile_imp hc)]

theorem foldl_no_title (chunks' : List String) (st : ParserState)
    (h : ∀ ch ∈ chunks', ¬ (titleLit <:+: ch.data)) :
    (chunks'.foldl handle_data st).title_found = st.title_found ∧
    (chunks'.foldl handle_data st).extracted_title = st.extracted_title := by
  induction chunks' generalizing st with
  | nil => exact ⟨rfl, rfl⟩
  | cons ch cs ih =>
    rw [List.foldl_cons,
      handle_data_of_guard_false st ch (by simp [h ch (List.mem_cons_self _ _)])]
    exact ih _ (fun x hx => h x (List.mem_cons_of_mem _ hx))

theorem foldl_found_stable (chunks' : List String) (st : ParserState)
    (h : st.title_found = true) :
    (chunks'.foldl handle_data st).title_found = true ∧
    (chunks'.foldl handle_data st).extracted_title = st.extracted_title := by
  induction chunks' generalizing st with
  | nil => exact ⟨h, rfl⟩
  | cons ch cs ih =>
    rw [List.foldl_cons, handle_data_of_found st ch h]
    exact ih _ h

/-- C3 (amended): scanning the (lowercased) data chunks in document order,
the first chunk containing `title:` whose pattern match succeeds sets the
title and later occurrences are ignored; when the rest of the line after the
first `title:` of that chunk contains a non-whitespace character, the
captured title is everything after `title:` up to the end of that line,
trimmed of surrounding whitespace.  Because the pipeline lowercases the
whole document before parsing, the extracted title is the lowercased text. -/
theorem title_extraction (cs1 : List String) (d : String) (cs2 : List String)
    (pre rest : List Char)
    (h1 : ∀ ch ∈ cs1, ¬ (titleLit <:+: (strLower ch).data))
    (h2 : (strLower d).data = pre ++ titleLit ++ rest)
    (h3 : ¬ (titleLit <:+: (pre ++ titleLit.dropLast)))
    (h4 : ∃ c ∈ rest.takeWhile (fun c => !(c == '\n')), isPySpace c = false) :
    resolvedTitle (cs1 ++ d :: cs2) =
      String.mk (stripChars (rest.takeWhile (fun c => !(c == '\n')))) := by
  have hsplit : lowerChunks (cs1 ++ d :: cs2) =
      lowerChunks cs1 ++ strLower d :: lowerChunks cs2 := by
    rw [lowerChunks, List.map_append, List.map_cons]
    rfl
  have h1' : ∀ ch ∈ lowerChunks cs1, ¬ (titleLit <:+: ch.data) := by
    intro ch hch
    rcases List.mem_map.1 hch with ⟨x, hx, rfl⟩
    exact h1 x hx
  have hpre := foldl_no_title (lowerChunks cs1) initState h1'
  have hnf : ((lowerChunks cs1).foldl handle_data initState).title_found = false :=
    hpre.1
  have hin : titleLit <:+: (strLower d).data := ⟨pre, rest, h2.symm⟩
  have hfix : pre.map Char.toLower = pre := by
    have hidem : ((strLower d).data).map Char.toLower = (strLower d).data := by
      rw [show (strLower d).data = d.data.map Char.toLower from rfl]
      exact map_toLower_idem d.data
    rw [h2, List.map_append, List.map_append] at hidem
    have hlen : ((pre.map Char.toLower) ++ (titleLit.map Char.toLower)).length =
        (pre ++ titleLit).length := by
      simp
    have h5 := List.append_inj hidem (by simp)
    have h6 := List.append_inj h5.1 (by simp)
    exact h6.1
  have hs : trySearch (strLower d).data =
      some ((rest.drop (rest.takeWhile isPySpace).length).takeWhile
        (fun c => !(c == '\n'))) := by
    rw [h2]
    exact trySearch_at_first pre rest hfix h3 h4
  have hfeed : feedAll (lowerChunks (cs1 ++ d :: cs2)) =
      (lowerChunks cs2).foldl handle_data
        (handle_data ((lowerChunks cs1).foldl handle_data initState)
          (strLower d)) := by
    rw [feedAll, hsplit, List.foldl_append, List.foldl_cons]
  have hmatch := handle_data_of_match
    ((lowerChunks cs1).foldl handle_data initState) (strLower d) hnf hin _ hs
  have hfin := foldl_found_stable (lowerChunks cs2)
    (handle_data ((lowerChunks cs1).foldl handle_data initState) (strLower d))
    (by rw [hmatch])
  have hres : resolvedTitle (cs1 ++ d :: cs2) =
      (feedAll (lowerChunks (cs1 ++ d :: cs2))).extracted_title := by
    refine resolvedTitle_of_found _ ?_
    rw [titleWasFound, hfeed]
    exact hfin.1
  rw [hres, hfeed, hfin.2, hmatch]
  exact congrArg String.mk (strip_drop_ws rest h4)

/-- C3 counterexample: on the spec's own scenario content the pipeline's
extracted title is `"moby dick"`, not `"Moby Dick"`, because the whole
document is lowercased before the parser runs. -/
theorem title_extraction_scenario_cex :
    resolvedTitle
        ["Title: Moby Dick\nCall me Ishmael. Some years ago—never mind how long precisely—I..."] =
      "moby dick" ∧
    resolvedTitle
        ["Title: Moby Dick\nCall me Ishmael. Some years ago—never mind how long precisely—I..."] ≠
      "Moby Dick" := by
  constructor
  · decide
  · decide

/-- C3 witness: the amended extraction theorem applied to the scenario
content, with the first chunk, first occurrence, and a nonblank line rest. -/
theorem title_extraction_witness :
    resolvedTitle
        ["Title: Moby Dick\nCall me Ishmael. Some years ago—never mind how long precisely—I..."] =
      "moby dick" := by
  have h := title_extraction []
    "Title: Moby Dick\nCall me Ishmael. Some years ago—never mind how long precisely—I..."
    [] []
    (List.map Char.toLower
      " Moby Dick\nCall me Ishmael. Some years ago—never mind how long precisely—I...".data)
    (by simp) (by decide) (by decide) (by decide)
  rw [List.nil_append] at h
  rw [h]
  decide

/-! ## Claim C6: lookup after ingest returns the ingested ranking -/

theorem sortDesc_of_sorted (l : List (String × Nat))
    (h : l.Pairwise (fun a b => b.2 ≤ a.2)) : sortDesc l = l := by
  induction l with
  | nil => rfl
  | cons x xs ih =>
    rcases List.pairwise_cons.1 h with ⟨hx, hxs⟩
    rw [sortDesc, ih hxs]
    cases xs with
    | nil => rfl
    | cons y ys =>
      rw [insertDesc,
        if_neg (by have := hx y (List.mem_cons_self _ _); omega)]

theorem rank_sorted (tokens : List String) (limit : Nat) :
    (rank tokens limit).Pairwise (fun a b => b.2 ≤ a.2) := by
  obtain ⟨hc, hm, hp⟩ := freqInv_wordFreqs tokens
  have h1 := pairwise_sortDesc _ _ hp
  exact (List.Pairwise.sublist (List.take_sublist _ _) h1).imp (fun h => h.1)

/-- C6 counterexample: ingesting a second document whose content carries the
same title `t` as an earlier document, the lookup by the resolved title hits
the earlier document (first match in rowid order) and returns its ranking,
not the ranking the second ingestion returned. -/
theorem ingest_lookup_cex :
    fetch_frequencies_by_title (resolvedTitle ["title: t\ngamma"])
        (ingest "L2" ["title: t\ngamma"]
          (ingest "L1" ["title: t\nalpha alpha beta"] emptyDB).1).1 ≠
      (ingest "L2" ["title: t\ngamma"]
        (ingest "L1" ["title: t\nalpha alpha beta"] emptyDB).1).2 := by
  decide

/-- C6 (amended): after a successful ingestion, looking up the title
resolved during that ingestion returns exactly the ranking (same pairs, same
order) that the ingestion returned, provided the title resolves — first
match by title in rowid order — to the very document id that ingestion
wrote; when an earlier document shares the resolved title, the lookup
returns that earlier document's ranking instead. -/
theorem ingest_lookup_roundtrip (link : String) (chunks : List String) (db : DB)
    (h : ∃ b : BookRow,
      (ingest link chunks db).1.books.find?
        (fun b2 => b2.title == resolvedTitle chunks) = some b ∧
      b.id = (insert_book (resolvedTitle chunks) link db).1) :
    fetch_frequencies_by_title (resolvedTitle chunks) (ingest link chunks db).1 =
      (ingest link chunks db).2 := by
  rcases h with ⟨b, hfind, hbid⟩
  have he : ingest link chunks db =
      (insert_word_frequencies (insert_book (resolvedTitle chunks) link db).1
        (rank (feedAll (lowerChunks chunks)).words 10)
        (insert_book (resolvedTitle chunks) link db).2,
       rank (feedAll (lowerChunks chunks)).words 10) := rfl
  rw [he] at hfind ⊢
  simp only [fetch_frequencies_by_title, hfind]
  rw [hbid, wfs_filter_replaced, map_proj_enumRows,
    sortDesc_of_sorted _ (rank_sorted _ _), rank, List.take_take, Nat.min_self]

/-- C6 witness: the roundtrip theorem applied to an ingestion into the empty
store, where the resolved title is fresh. -/
theorem ingest_lookup_roundtrip_witness :
    fetch_frequencies_by_title (resolvedTitle ["title: t\nalpha alpha beta"])
        (ingest "L1" ["title: t\nalpha alpha beta"] emptyDB).1 =
      (ingest "L1" ["title: t\nalpha alpha beta"] emptyDB).2 :=
  ingest_lookup_roundtrip "L1" ["title: t\nalpha alpha beta"] emptyDB
    ⟨⟨1, "t", "L1"⟩, by decide, by decide⟩

end Gutenberg
